import Mathlib

/-!
Verification of the RO-LE-MA converter (`src/ro_le_ma.py`, class `ROLemaCore`).

Text is modelled as `List Char`, covering the ASCII fragment of Python's
string semantics: the regex class `\w` is `[A-Za-z0-9_]`, `\s` is the six
ASCII whitespace characters, and `str.upper` / `str.lower` map the ASCII
letters.  Every operation of the core converter is translated directly from
the source: `clean_text`, `get_three_letters`, `convert`, `get_stats`, the
`special_cases` table and the `stop_words` list, and the mutable statistics
dictionary is threaded explicitly as a `Stats` value.
-/

namespace ROLeMa

/-- ASCII uppercase letter, `A`-`Z` (codepoints 65-90). -/
def isUpperAlpha (c : Char) : Bool := 65 ≤ c.toNat && c.toNat ≤ 90

/-- ASCII lowercase letter, `a`-`z` (codepoints 97-122). -/
def isLowerAlpha (c : Char) : Bool := 97 ≤ c.toNat && c.toNat ≤ 122

/-- ASCII digit, `0`-`9` (codepoints 48-57). -/
def isDigitChar (c : Char) : Bool := 48 ≤ c.toNat && c.toNat ≤ 57

/-- Python regex class `\w` on ASCII: alphanumeric or underscore. -/
def isWordChar (c : Char) : Bool :=
  isUpperAlpha c || isLowerAlpha c || isDigitChar c || c = '_'

/-- Python regex class `\s` (also the separator set of `str.split()`), ASCII. -/
def isSpaceChar (c : Char) : Bool :=
  c = ' ' || c = '\t' || c = '\n' || c = '\r' || c = '\x0b' || c = '\x0c'

/-- `str.upper` on a single ASCII character. -/
def upperChar (c : Char) : Char :=
  if isLowerAlpha c then Char.ofNat (c.toNat - 32) else c

/-- `str.lower` on a single ASCII character. -/
def lowerChar (c : Char) : Char :=
  if isUpperAlpha c then Char.ofNat (c.toNat + 32) else c

/-- `str.upper`. -/
def pyUpper (s : List Char) : List Char := s.map upperChar

/-- `str.lower`. -/
def pyLower (s : List Char) : List Char := s.map lowerChar

/-- `str.isdigit` on ASCII: non-empty and all digits. -/
def pyIsDigit (s : List Char) : Bool := !s.isEmpty && s.all isDigitChar

/-- `str.zfill width`: left-pad with `'0'` up to `width`, keeping a leading
sign in place, exactly as Python does. -/
def pyZfill (width : Nat) (s : List Char) : List Char :=
  match s with
  | [] => List.replicate width '0'
  | c :: rest =>
    if c = '+' || c = '-' then c :: (List.replicate (width - s.length) '0' ++ rest)
    else List.replicate (width - s.length) '0' ++ s

/-- Worker for `str.split()` with no argument: split on runs of whitespace,
producing no empty words.  `acc` holds the characters of the word currently
being scanned, in reverse order. -/
def splitAux : List Char → List Char → List (List Char)
  | [], acc => if acc.isEmpty then [] else [acc.reverse]
  | c :: rest, acc =>
    if isSpaceChar c then
      if acc.isEmpty then splitAux rest [] else acc.reverse :: splitAux rest []
    else splitAux rest (c :: acc)

/-- `str.split()` with no argument. -/
def pySplit (s : List Char) : List (List Char) := splitAux s []

/-- `sep.join words`. -/
def pyJoin (sep : List Char) : List (List Char) → List Char
  | [] => []
  | [w] => w
  | w :: v :: ws => w ++ sep ++ pyJoin sep (v :: ws)

/-- The regex `[^\w\s-]` deletes exactly the characters this predicate
rejects: `re.sub` keeps word characters, whitespace and the hyphen. -/
def keepChar (c : Char) : Bool := isWordChar c || isSpaceChar c || c = '-'

/-- `text.replace('-', ' ')`, one character at a time. -/
def hyphenToSpace (c : Char) : Char := if c = '-' then ' ' else c

/-- `ROLemaCore.special_cases`: the literal table from `__init__`. -/
def special_cases : List (List Char × List Char) :=
  [("mcdonalds".toList, "MCD".toList),
   ("kfc".toList, "KFC".toList),
   ("bmw".toList, "BMW".toList),
   ("iphone".toList, "IPH".toList),
   ("usa".toList, "USA".toList),
   ("uk".toList, "UKX".toList),
   ("ai".toList, "AIX".toList),
   ("nike".toList, "NIK".toList),
   ("adidas".toList, "ADI".toList),
   ("google".toList, "GOO".toList)]

/-- `ROLemaCore.stop_words`: the literal list from `__init__`. -/
def stop_words : List (List Char) :=
  ["the".toList, "and".toList, "of".toList, "for".toList, "in".toList,
   "on".toList, "at".toList, "by".toList, "a".toList, "an".toList]

/-- `ROLemaCore.clean_text`: strip characters outside `\w\s-`, turn hyphens
into spaces, uppercase, and re-join the whitespace-split words with single
spaces. -/
def clean_text (text : List Char) : List Char :=
  if text.isEmpty then []
  else
    pyJoin [' '] (pySplit (pyUpper ((text.filter keepChar).map hyphenToSpace)))

/-- `ROLemaCore.get_three_letters`: special-case lookup on the lowercase
form, then the digit rule, then the short-word padding rules. -/
def get_three_letters (word : List Char) : List Char :=
  let w := pyUpper word
  match List.lookup (pyLower w) special_cases with
  | some code => code
  | none =>
    if pyIsDigit w then (pyZfill 3 w).take 3
    else if w.length = 1 then w ++ ['X', 'X']
    else if w.length = 2 then w ++ ['X']
    else w.take 3

/-- The mutable `self.stats` dictionary of `ROLemaCore`. -/
structure Stats where
  conversions : Nat
  unique_codes : Finset (List Char)
deriving DecidableEq

/-- `self.stats` as initialized in `ROLemaCore.__init__`. -/
def initStats : Stats := ⟨0, ∅⟩

/-- The successful result dictionary built by `ROLemaCore.convert`
(the `timestamp` field, a wall-clock reading, is outside the model). -/
structure ConversionResult where
  original : List Char
  cleaned : List Char
  words : List (List Char)
  code : List Char
  compact : List Char
  chunks : List (List Char)
  length : Nat
deriving DecidableEq

/-- The value returned by `ROLemaCore.convert`: either the error dictionary
(`error` message plus the original text) or a full result. -/
inductive ConvertOutput where
  | error (msg : List Char) (original : List Char)
  | ok (r : ConversionResult)
deriving DecidableEq

/-- `ROLemaCore.convert`, with the statistics state threaded explicitly. -/
def convert (st : Stats) (text : List Char) (skip_stop_words : Bool) :
    ConvertOutput × Stats :=
  let original := text
  let cleaned := clean_text text
  if cleaned.isEmpty then
    (ConvertOutput.error "Empty input".toList original, st)
  else
    let words := pySplit cleaned
    let words := if skip_stop_words then
        words.filter (fun w => !stop_words.contains (pyLower w))
      else words
    let chunks := words.map get_three_letters
    let code := pyJoin ['-'] chunks
    let st' : Stats := ⟨st.conversions + 1, insert code st.unique_codes⟩
    (ConvertOutput.ok
      { original := original, cleaned := cleaned, words := words,
        code := code, compact := pyJoin [] chunks, chunks := chunks,
        length := chunks.length }, st')

/-- The dictionary returned by `ROLemaCore.get_stats`. -/
structure StatsSnapshot where
  version : List Char
  total_conversions : Nat
  unique_codes_generated : Nat
  special_cases_count : Nat
deriving DecidableEq

/-- `ROLemaCore.get_stats`. -/
def get_stats (st : Stats) : StatsSnapshot :=
  ⟨"0.1.0".toList, st.conversions, st.unique_codes.card, special_cases.length⟩

/-- The surviving word list of a conversion, as a function of the call
arguments alone (mirrors the two `words` bindings inside `convert`). -/
def survivors (text : List Char) (skip : Bool) : List (List Char) :=
  let ws := pySplit (clean_text text)
  if skip then ws.filter (fun w => !stop_words.contains (pyLower w)) else ws

/-- The hyphenated code a conversion produces, as a function of the call
arguments alone. -/
def codeOf (text : List Char) (skip : Bool) : List Char :=
  pyJoin ['-'] ((survivors text skip).map get_three_letters)

/-- Run a sequence of conversions, accumulating only the statistics. -/
def runAll (st : Stats) : List (List Char × Bool) → Stats
  | [] => st
  | p :: rest => runAll (convert st p.1 p.2).2 rest

/-- The `code` field of an output, when the conversion succeeded. -/
def resultCode : ConvertOutput → Option (List Char)
  | ConvertOutput.ok r => some r.code
  | ConvertOutput.error _ _ => none

/-- The `words` field of an output, when the conversion succeeded. -/
def resultWords : ConvertOutput → Option (List (List Char))
  | ConvertOutput.ok r => some r.words
  | ConvertOutput.error _ _ => none

/-- The character classes the spec's normalization guarantee permits,
stated from the spec's words: uppercase letters, digits, spaces. -/
def specCleanChar (c : Char) : Bool := isUpperAlpha c || isDigitChar c || c = ' '

/-- The character classes `clean_text` actually emits: uppercase letters,
digits, underscores, spaces. -/
def cleanChar (c : Char) : Bool :=
  isUpperAlpha c || isDigitChar c || c = '_' || c = ' '

/-- No leading space character. -/
def noLeadingSpace : List Char → Bool
  | [] => true
  | c :: _ => if c = ' ' then false else true

/-- No trailing space character. -/
def noTrailingSpace (l : List Char) : Bool := noLeadingSpace l.reverse

/-- No two adjacent space characters. -/
def noDoubleSpace : List Char → Bool
  | c :: d :: rest => if c = ' ' ∧ d = ' ' then false else noDoubleSpace (d :: rest)
  | _ => true

/-! ### Character-level lemmas -/

theorem char_toNat_ofNat {n : Nat} (h : n.isValidChar) : (Char.ofNat n).toNat = n := by
  unfold Char.ofNat
  rw [dif_pos h]
  rfl

theorem char_toNat_inj {c d : Char} (h : c.toNat = d.toNat) : c = d :=
  Char.eq_of_val_eq (UInt32.ext h)

theorem isLowerAlpha_iff {c : Char} : isLowerAlpha c = true ↔ 97 ≤ c.toNat ∧ c.toNat ≤ 122 := by
  simp [isLowerAlpha]

theorem isUpperAlpha_iff {c : Char} : isUpperAlpha c = true ↔ 65 ≤ c.toNat ∧ c.toNat ≤ 90 := by
  simp [isUpperAlpha]

theorem isDigitChar_iff {c : Char} : isDigitChar c = true ↔ 48 ≤ c.toNat ∧ c.toNat ≤ 57 := by
  simp [isDigitChar]

theorem upperChar_toNat (c : Char) :
    (upperChar c).toNat = if isLowerAlpha c = true then c.toNat - 32 else c.toNat := by
  simp only [upperChar]
  by_cases h : isLowerAlpha c = true
  · rw [if_pos h, if_pos h]
    have hr := isLowerAlpha_iff.mp h
    exact char_toNat_ofNat (Or.inl (by omega))
  · rw [if_neg h, if_neg h]

theorem lowerChar_toNat (c : Char) :
    (lowerChar c).toNat = if isUpperAlpha c = true then c.toNat + 32 else c.toNat := by
  simp only [lowerChar]
  by_cases h : isUpperAlpha c = true
  · rw [if_pos h, if_pos h]
    have hr := isUpperAlpha_iff.mp h
    exact char_toNat_ofNat (Or.inl (by omega))
  · rw [if_neg h, if_neg h]

theorem upperChar_eq_self {c : Char} (h : isLowerAlpha c = false) : upperChar c = c := by
  simp [upperChar, h]

theorem not_lower_of_upper {c : Char} (h : isUpperAlpha c = true) : isLowerAlpha c = false := by
  cases hl : isLowerAlpha c
  · rfl
  · have h1 := isUpperAlpha_iff.mp h
    have h2 := isLowerAlpha_iff.mp hl
    omega

theorem not_lower_of_digit {c : Char} (h : isDigitChar c = true) : isLowerAlpha c = false := by
  cases hl : isLowerAlpha c
  · rfl
  · have h1 := isDigitChar_iff.mp h
    have h2 := isLowerAlpha_iff.mp hl
    omega

theorem lowerChar_upperChar (c : Char) : lowerChar (upperChar c) = lowerChar c := by
  by_cases h : isLowerAlpha c = true
  · have hr := isLowerAlpha_iff.mp h
    have h1 : (upperChar c).toNat = c.toNat - 32 := by rw [upperChar_toNat, if_pos h]
    have h2 : isUpperAlpha (upperChar c) = true := isUpperAlpha_iff.mpr (by omega)
    have h3 : isUpperAlpha c = false := by
      cases hc : isUpperAlpha c
      · rfl
      · have := isUpperAlpha_iff.mp hc
        omega
    apply char_toNat_inj
    rw [lowerChar_toNat, lowerChar_toNat, if_pos h2, if_neg (by simp [h3]), h1]
    omega
  · rw [upperChar_eq_self (by simpa using h)]

theorem map_eq_self_of {f : Char → Char} {l : List Char} (h : ∀ c ∈ l, f c = c) :
    l.map f = l := by
  induction l with
  | nil => rfl
  | cons a t ih => rw [List.map_cons, h a (by simp), ih (fun c hc => h c (by simp [hc]))]

theorem pyLower_pyUpper (s : List Char) : pyLower (pyUpper s) = pyLower s := by
  simp only [pyLower, pyUpper, List.map_map]
  induction s with
  | nil => rfl
  | cons a t ih => simp only [List.map_cons, Function.comp, lowerChar_upperChar, ih]

/-! ### Lemmas about `pySplit` and `pyJoin` -/

theorem pyJoin_cons_cons (sep w v : List Char) (ws : List (List Char)) :
    pyJoin sep (w :: v :: ws) = w ++ sep ++ pyJoin sep (v :: ws) := rfl

theorem mem_pyJoin {sep : List Char} {ws : List (List Char)} {c : Char}
    (h : c ∈ pyJoin sep ws) : c ∈ sep ∨ ∃ w ∈ ws, c ∈ w := by
  induction ws with
  | nil => simp [pyJoin] at h
  | cons w ws ih =>
    cases ws with
    | nil => exact Or.inr ⟨w, by simp, by simpa [pyJoin] using h⟩
    | cons v ws2 =>
      rw [pyJoin_cons_cons] at h
      rcases List.mem_append.mp h with h1 | h2
      · rcases List.mem_append.mp h1 with h3 | h4
        · exact Or.inr ⟨w, by simp, h3⟩
        · exact Or.inl h4
      · rcases ih h2 with h5 | ⟨u, hu, hc⟩
        · exact Or.inl h5
        · exact Or.inr ⟨u, List.mem_cons_of_mem w hu, hc⟩

theorem pyJoin_ne_nil {sep w : List Char} {ws : List (List Char)} (hw : w ≠ []) :
    pyJoin sep (w :: ws) ≠ [] := by
  cases ws with
  | nil => simpa [pyJoin]
  | cons v ws2 => simp [pyJoin_cons_cons, hw]

theorem splitAux_sound {l : List Char} :
    ∀ (acc : List Char) {w : List Char}, (∀ c ∈ acc, isSpaceChar c = false) →
      w ∈ splitAux l acc →
      w ≠ [] ∧ ∀ c ∈ w, (c ∈ l ∨ c ∈ acc) ∧ isSpaceChar c = false := by
  induction l with
  | nil =>
    intro acc w hacc hw
    simp only [splitAux] at hw
    by_cases ha : acc.isEmpty = true
    · rw [if_pos ha] at hw
      simp at hw
    · rw [if_neg ha] at hw
      simp only [List.mem_singleton] at hw
      subst hw
      refine ⟨by simpa [List.isEmpty_iff] using ha, fun c hc => ?_⟩
      have hc2 : c ∈ acc := List.mem_reverse.mp hc
      exact ⟨Or.inr hc2, hacc c hc2⟩
  | cons a l ih =>
    intro acc w hacc hw
    simp only [splitAux] at hw
    by_cases hs : isSpaceChar a = true
    · rw [if_pos hs] at hw
      by_cases ha : acc.isEmpty = true
      · rw [if_pos ha] at hw
        have h1 := ih [] (by simp) hw
        refine ⟨h1.1, fun c hc => ?_⟩
        rcases (h1.2 c hc).1 with h2 | h2
        · exact ⟨Or.inl (List.mem_cons_of_mem a h2), (h1.2 c hc).2⟩
        · simp at h2
      · rw [if_neg ha] at hw
        rcases List.mem_cons.mp hw with h1 | h1
        · subst h1
          refine ⟨by simpa [List.isEmpty_iff] using ha, fun c hc => ?_⟩
          have hc2 : c ∈ acc := List.mem_reverse.mp hc
          exact ⟨Or.inr hc2, hacc c hc2⟩
        · have h2 := ih [] (by simp) h1
          refine ⟨h2.1, fun c hc => ?_⟩
          rcases (h2.2 c hc).1 with h3 | h3
          · exact ⟨Or.inl (List.mem_cons_of_mem a h3), (h2.2 c hc).2⟩
          · simp at h3
    · rw [if_neg hs] at hw
      have hacc2 : ∀ c ∈ a :: acc, isSpaceChar c = false := by
        intro c hc
        rcases List.mem_cons.mp hc with rfl | h
        · simpa using hs
        · exact hacc c h
      have h1 := ih (a :: acc) hacc2 hw
      refine ⟨h1.1, fun c hc => ?_⟩
      rcases (h1.2 c hc).1 with h2 | h2
      · exact ⟨Or.inl (List.mem_cons_of_mem a h2), (h1.2 c hc).2⟩
      · rcases List.mem_cons.mp h2 with rfl | h3
        · exact ⟨Or.inl (List.mem_cons_self c l), (h1.2 c hc).2⟩
        · exact ⟨Or.inr h3, (h1.2 c hc).2⟩

theorem pySplit_sound {s w : List Char} (hw : w ∈ pySplit s) :
    w ≠ [] ∧ ∀ c ∈ w, c ∈ s ∧ isSpaceChar c = false := by
  have h := splitAux_sound (l := s) [] (by simp) hw
  exact ⟨h.1, fun c hc => ⟨(h.2 c hc).1.resolve_right (by simp), (h.2 c hc).2⟩⟩

theorem splitAux_word_append {w : List Char} (hw : ∀ c ∈ w, isSpaceChar c = false) :
    ∀ (t acc : List Char), splitAux (w ++ t) acc = splitAux t (w.reverse ++ acc) := by
  induction w with
  | nil => intro t acc; simp
  | cons c w ih =>
    intro t acc
    have hc : isSpaceChar c = false := hw c (by simp)
    simp only [List.cons_append, splitAux, List.append_eq]
    rw [if_neg (by simp [hc])]
    rw [ih (fun d hd => hw d (by simp [hd])) t (c :: acc)]
    congr 1
    simp

theorem pySplit_pyJoin {ws : List (List Char)}
    (h : ∀ w ∈ ws, w ≠ [] ∧ ∀ c ∈ w, isSpaceChar c = false) :
    pySplit (pyJoin [' '] ws) = ws := by
  induction ws with
  | nil => rfl
  | cons w ws ih =>
    have hw := h w (by simp)
    have hrne : w.reverse.isEmpty = false := by
      simp [List.isEmpty_iff, hw.1]
    cases ws with
    | nil =>
      show splitAux w [] = [w]
      have h0 := splitAux_word_append hw.2 [] []
      rw [List.append_nil, List.append_nil] at h0
      rw [h0]
      simp only [splitAux, hrne]
      simp
    | cons v ws2 =>
      have hrest : ∀ u ∈ v :: ws2, u ≠ [] ∧ ∀ c ∈ u, isSpaceChar c = false :=
        fun u hu => h u (List.mem_cons_of_mem w hu)
      rw [pyJoin_cons_cons, List.append_assoc]
      show splitAux (w ++ (' ' :: pyJoin [' '] (v :: ws2))) [] = w :: v :: ws2
      rw [splitAux_word_append hw.2, List.append_nil]
      simp only [splitAux, hrne]
      have hsp : isSpaceChar ' ' = true := by decide
      rw [if_pos hsp, if_neg (by simp [hrne])]
      rw [List.reverse_reverse]
      exact congrArg (w :: ·) (ih hrest)

/-! ### Characters surviving `clean_text` -/

theorem cleanChar_of_kept {c : Char} (hk : keepChar c = true)
    (hs : isSpaceChar (upperChar (hyphenToSpace c)) = false) :
    cleanChar (upperChar (hyphenToSpace c)) = true := by
  by_cases hh : c = '-'
  · subst hh
    exact absurd hs (by decide)
  · have h1 : hyphenToSpace c = c := by simp [hyphenToSpace, hh]
    rw [h1] at hs ⊢
    simp only [keepChar, isWordChar, Bool.or_eq_true, decide_eq_true_eq] at hk
    rcases hk with ((((hu | hl) | hd) | hund) | hsp) | hhy
    · rw [upperChar_eq_self (not_lower_of_upper hu)]
      simp [cleanChar, hu]
    · have h2 : (upperChar c).toNat = c.toNat - 32 := by
        rw [upperChar_toNat, if_pos hl]
      have h3 := isLowerAlpha_iff.mp hl
      have h4 : isUpperAlpha (upperChar c) = true := isUpperAlpha_iff.mpr (by omega)
      simp [cleanChar, h4]
    · rw [upperChar_eq_self (not_lower_of_digit hd)]
      simp [cleanChar, hd]
    · subst hund
      decide
    · simp only [isSpaceChar, Bool.or_eq_true, decide_eq_true_eq] at hsp
      rcases hsp with ((((rfl | rfl) | rfl) | rfl) | rfl) | rfl
      all_goals exact absurd hs (by decide)
    · exact absurd hhy hh

theorem clean_text_eq (text : List Char) :
    clean_text text =
      pyJoin [' '] (pySplit (pyUpper ((text.filter keepChar).map hyphenToSpace))) := by
  cases text with
  | nil => rfl
  | cons c rest => rfl

theorem clean_text_chars (text : List Char) : ∀ c ∈ clean_text text, cleanChar c = true := by
  intro c hc
  rw [clean_text_eq] at hc
  rcases mem_pyJoin hc with hsep | ⟨w, hw, hcw⟩
  · simp only [List.mem_singleton] at hsep
    subst hsep
    decide
  · have hws := pySplit_sound hw
    have h1 := (hws.2 c hcw).1
    have h2 := (hws.2 c hcw).2
    simp only [pyUpper, List.mem_map, List.mem_filter] at h1
    rcases h1 with ⟨c1, hc1, rfl⟩
    rcases hc1 with ⟨c0, hc0, rfl⟩
    exact cleanChar_of_kept hc0.2 h2

/-! ### Single-spacing lemmas -/

theorem noLeadingSpace_of_all {l : List Char} (h : ∀ c ∈ l, c ≠ ' ') :
    noLeadingSpace l = true := by
  cases l with
  | nil => rfl
  | cons c t => simp [noLeadingSpace, h c (by simp)]

theorem noLeadingSpace_append {w : List Char} (t : List Char) (hne : w ≠ []) :
    noLeadingSpace (w ++ t) = noLeadingSpace w := by
  cases w with
  | nil => exact absurd rfl hne
  | cons c w2 => rfl

theorem noDoubleSpace_cons {c : Char} {t : List Char} (hc : c ≠ ' ')
    (ht : noDoubleSpace t = true) : noDoubleSpace (c :: t) = true := by
  cases t with
  | nil => rfl
  | cons d t2 => simpa [noDoubleSpace, hc] using ht

theorem noDoubleSpace_append {w t : List Char} (hw : ∀ c ∈ w, c ≠ ' ')
    (ht : noDoubleSpace t = true) : noDoubleSpace (w ++ t) = true := by
  induction w with
  | nil => simpa
  | cons c w2 ih =>
    exact noDoubleSpace_cons (hw c (by simp)) (ih (fun d hd => hw d (by simp [hd])))

theorem noDoubleSpace_of_all {w : List Char} (hw : ∀ c ∈ w, c ≠ ' ') :
    noDoubleSpace w = true := by
  have h := noDoubleSpace_append hw (t := []) rfl
  simpa using h

theorem noDoubleSpace_space_cons {t : List Char} (h1 : noLeadingSpace t = true)
    (h2 : noDoubleSpace t = true) : noDoubleSpace (' ' :: t) = true := by
  cases t with
  | nil => rfl
  | cons d t2 =>
    by_cases hd : d = ' '
    · subst hd
      simp [noLeadingSpace] at h1
    · simp only [noDoubleSpace, hd]
      simpa [hd] using h2

theorem pyJoin_singleSpaced {ws : List (List Char)}
    (h : ∀ w ∈ ws, w ≠ [] ∧ ∀ c ∈ w, c ≠ ' ') :
    noLeadingSpace (pyJoin [' '] ws) = true ∧
    noTrailingSpace (pyJoin [' '] ws) = true ∧
    noDoubleSpace (pyJoin [' '] ws) = true := by
  induction ws with
  | nil => exact ⟨rfl, rfl, rfl⟩
  | cons w ws ih =>
    have hw := h w (by simp)
    cases ws with
    | nil =>
      refine ⟨noLeadingSpace_of_all hw.2, ?_, noDoubleSpace_of_all hw.2⟩
      exact noLeadingSpace_of_all (fun c hc => hw.2 c (List.mem_reverse.mp hc))
    | cons v ws2 =>
      have hrest : ∀ u ∈ v :: ws2, u ≠ [] ∧ ∀ c ∈ u, c ≠ ' ' :=
        fun u hu => h u (List.mem_cons_of_mem w hu)
      have iht := ih hrest
      have htne : pyJoin [' '] (v :: ws2) ≠ [] := pyJoin_ne_nil (h v (by simp)).1
      rw [pyJoin_cons_cons, List.append_assoc]
      have hcons : [' '] ++ pyJoin [' '] (v :: ws2) = ' ' :: pyJoin [' '] (v :: ws2) := rfl
      rw [hcons]
      refine ⟨?_, ?_, ?_⟩
      · rw [noLeadingSpace_append _ hw.1]
        exact noLeadingSpace_of_all hw.2
      · show noLeadingSpace (w ++ ' ' :: pyJoin [' '] (v :: ws2)).reverse = true
        rw [List.reverse_append, List.reverse_cons, List.append_assoc]
        rw [noLeadingSpace_append _ (by simpa using htne)]
        exact iht.2.1
      · exact noDoubleSpace_append hw.2 (noDoubleSpace_space_cons iht.1 iht.2.2)

/-! ### Unfolding lemmas for `convert` -/

theorem convert_eq_of_empty (st : Stats) (text : List Char) (skip : Bool)
    (h : clean_text text = []) :
    convert st text skip = (ConvertOutput.error "Empty input".toList text, st) := by
  simp [convert, h]

theorem convert_fst_of_ok (st : Stats) (text : List Char) (skip : Bool)
    (h : clean_text text ≠ []) :
    (convert st text skip).1 = ConvertOutput.ok
      { original := text, cleaned := clean_text text,
        words := survivors text skip,
        code := pyJoin ['-'] ((survivors text skip).map get_three_letters),
        compact := pyJoin [] ((survivors text skip).map get_three_letters),
        chunks := (survivors text skip).map get_three_letters,
        length := ((survivors text skip).map get_three_letters).length } := by
  have hne : (clean_text text).isEmpty = false := by simp [List.isEmpty_iff, h]
  simp [convert, survivors, hne]

theorem convert_snd (st : Stats) (text : List Char) (skip : Bool) :
    (convert st text skip).2 =
      if clean_text text = [] then st
      else ⟨st.conversions + 1, insert (codeOf text skip) st.unique_codes⟩ := by
  by_cases h : clean_text text = []
  · rw [if_pos h]
    simp [convert, h]
  · rw [if_neg h]
    have hne : (clean_text text).isEmpty = false := by simp [List.isEmpty_iff, h]
    simp [convert, codeOf, survivors, hne]

theorem keep_of_cleanChar {c : Char} (h : cleanChar c = true) : keepChar c = true := by
  simp only [cleanChar, Bool.or_eq_true, decide_eq_true_eq] at h
  rcases h with ((hu | hd) | rfl) | rfl
  · simp [keepChar, isWordChar, hu]
  · simp [keepChar, isWordChar, hd]
  · decide
  · decide

theorem hyph_of_cleanChar {c : Char} (h : cleanChar c = true) : hyphenToSpace c = c := by
  have hne : c ≠ '-' := by
    intro he
    subst he
    exact absurd h (by decide)
  simp [hyphenToSpace, hne]

theorem upperChar_of_cleanChar {c : Char} (h : cleanChar c = true) : upperChar c = c := by
  apply upperChar_eq_self
  simp only [cleanChar, Bool.or_eq_true, decide_eq_true_eq] at h
  rcases h with ((hu | hd) | rfl) | rfl
  · exact not_lower_of_upper hu
  · exact not_lower_of_digit hd
  · decide
  · decide

theorem survivors_eq_nil {text : List Char}
    (hall : ∀ w ∈ pySplit (clean_text text), stop_words.contains (pyLower w) = true) :
    survivors text true = [] := by
  simp only [survivors, if_true]
  exact List.filter_eq_nil_iff.mpr (fun w hw => by simp; simpa using hall w hw)

theorem runAll_stats (inputs : List (List Char × Bool)) :
    ∀ st : Stats, (∀ p ∈ inputs, clean_text p.1 ≠ []) →
      runAll st inputs = ⟨st.conversions + inputs.length,
        st.unique_codes ∪ (inputs.map (fun p => codeOf p.1 p.2)).toFinset⟩ := by
  induction inputs with
  | nil =>
    intro st h
    cases st with
    | mk a b => simp [runAll]
  | cons p rest ih =>
    intro st h
    have h1 : clean_text p.1 ≠ [] := h p (by simp)
    simp only [runAll]
    rw [convert_snd, if_neg h1]
    rw [ih _ (fun q hq => h q (by simp [hq]))]
    simp only [List.map_cons, List.toFinset_cons, List.length_cons]
    congr 1
    · omega
    · rw [Finset.insert_union, Finset.union_insert]

/-! ### The claims -/

/-- Claim C1: end-to-end examples with stop-word removal enabled: Eiffel Tower
gives EIF-TOW, Coca-Cola Can gives COC-COL-CAN, Robot Learning Machine gives
ROB-LEA-MAC, iPhone 15 Pro Max gives IPH-015-PRO-MAX with the table mapping
iphone to IPH, and The Statue of Liberty drops the stop words the and of,
giving STA-LIB. -/
theorem convert_examples :
    resultCode (convert initStats "Eiffel Tower".toList true).1 = some "EIF-TOW".toList ∧
    resultCode (convert initStats "Coca-Cola Can".toList true).1 = some "COC-COL-CAN".toList ∧
    resultCode (convert initStats "Robot Learning Machine".toList true).1 =
      some "ROB-LEA-MAC".toList ∧
    List.lookup "iphone".toList special_cases = some "IPH".toList ∧
    resultCode (convert initStats "iPhone 15 Pro Max".toList true).1 =
      some "IPH-015-PRO-MAX".toList ∧
    resultWords (convert initStats "The Statue of Liberty".toList true).1 =
      some ["STATUE".toList, "LIBERTY".toList] ∧
    resultCode (convert initStats "The Statue of Liberty".toList true).1 =
      some "STA-LIB".toList := by
  decide

/-- Claim C2: for a non-empty normalized word that misses the special-case
table, the abbreviation ladder applies: an all-digit word is left-padded with
zeros to at least three characters and truncated to the first three, a
one-letter word gets XX appended, a two-letter word gets X appended, a longer
word is truncated to its first three characters, and every path returns
exactly three characters. -/
theorem get_three_letters_ladder :
    (∀ word : List Char, word ≠ [] → pyUpper word = word →
      List.lookup (pyLower word) special_cases = none →
      (pyIsDigit word = true →
        get_three_letters word = (List.replicate (3 - word.length) '0' ++ word).take 3) ∧
      (pyIsDigit word = false → word.length = 1 →
        get_three_letters word = word ++ ['X', 'X']) ∧
      (pyIsDigit word = false → word.length = 2 →
        get_three_letters word = word ++ ['X']) ∧
      (pyIsDigit word = false → 3 ≤ word.length →
        get_three_letters word = word.take 3) ∧
      (get_three_letters word).length = 3) ∧
    get_three_letters "7".toList = "007".toList ∧
    get_three_letters "42".toList = "042".toList ∧
    get_three_letters "1234".toList = "123".toList := by
  refine ⟨?_, by decide, by decide, by decide⟩
  intro word hne hup hsc
  have hg : get_three_letters word =
      if pyIsDigit word = true then (pyZfill 3 word).take 3
      else if word.length = 1 then word ++ ['X', 'X']
      else if word.length = 2 then word ++ ['X']
      else word.take 3 := by
    simp only [get_three_letters, hup, hsc]
  have hlen1 : 1 ≤ word.length := by
    cases word with
    | nil => exact absurd rfl hne
    | cons c rest => simp
  have hzf : pyIsDigit word = true →
      pyZfill 3 word = List.replicate (3 - word.length) '0' ++ word := by
    intro hd
    cases word with
    | nil => exact absurd rfl hne
    | cons c rest =>
      simp only [pyIsDigit, List.all_cons, Bool.and_eq_true] at hd
      have hc := hd.2.1
      have h48 := isDigitChar_iff.mp hc
      have hplus : ¬(c = '+') := by
        intro he
        subst he
        exact absurd h48 (by decide)
      have hminus : ¬(c = '-') := by
        intro he
        subst he
        exact absurd h48 (by decide)
      simp [pyZfill, hplus, hminus]
  refine ⟨?_, ?_, ?_, ?_, ?_⟩
  · intro hd
    rw [hg, if_pos hd, hzf hd]
  · intro hd h1
    rw [hg, if_neg (by simp [hd]), if_pos h1]
  · intro hd h2
    rw [hg, if_neg (by simp [hd]), if_neg (by omega), if_pos h2]
  · intro hd h3
    rw [hg, if_neg (by simp [hd]), if_neg (by omega), if_neg (by omega)]
  · rw [hg]
    by_cases hd : pyIsDigit word = true
    · rw [if_pos hd, hzf hd]
      simp only [List.length_take, List.length_append, List.length_replicate]
      omega
    · rw [if_neg hd]
      by_cases h1 : word.length = 1
      · rw [if_pos h1]
        simp [h1]
      · rw [if_neg h1]
        by_cases h2 : word.length = 2
        · rw [if_pos h2]
          simp [h2]
        · rw [if_neg h2]
          simp only [List.length_take]
          omega

/-- Witness for claim C2 at concrete words. -/
theorem get_three_letters_ladder_witness :
    get_three_letters "HELLO".toList = "HELLO".toList.take 3 ∧
    get_three_letters "AB".toList = "AB".toList ++ ['X'] ∧
    get_three_letters "Q".toList = "Q".toList ++ ['X', 'X'] ∧
    (get_three_letters "42".toList).length = 3 :=
  ⟨(get_three_letters_ladder.1 "HELLO".toList (by decide) (by decide)
      (by decide)).2.2.2.1 (by decide) (by decide),
   (get_three_letters_ladder.1 "AB".toList (by decide) (by decide)
      (by decide)).2.2.1 (by decide) (by decide),
   (get_three_letters_ladder.1 "Q".toList (by decide) (by decide)
      (by decide)).2.1 (by decide) (by decide),
   (get_three_letters_ladder.1 "42".toList (by decide) (by decide)
      (by decide)).2.2.2.2⟩

/-- Claim C3: a word whose lowercase form exactly matches a special-case key
is abbreviated to the stored code verbatim, taking precedence over the digit
and length rules, whatever the word's length. -/
theorem get_three_letters_special (word code : List Char)
    (h : List.lookup (pyLower word) special_cases = some code) :
    get_three_letters word = code := by
  have h2 : List.lookup (pyLower (pyUpper word)) special_cases = some code := by
    rw [pyLower_pyUpper]
    exact h
  simp only [get_three_letters, h2]

/-- Witness for claim C3 on the iphone entry. -/
theorem get_three_letters_special_witness :
    List.lookup (pyLower "iPhone".toList) special_cases = some "IPH".toList ∧
    get_three_letters "iPhone".toList = "IPH".toList :=
  ⟨by decide, get_three_letters_special "iPhone".toList "IPH".toList (by decide)⟩

/-- Claim C4 is false as stated: the underscore is a Python word character
(regex `\w`), so `clean_text` keeps it, and the output for the input a_b is
the non-empty string A_B containing a character that is neither an uppercase
letter, a digit, nor a space. -/
theorem clean_text_underscore_cex :
    clean_text "a_b".toList = "A_B".toList ∧
    '_' ∈ clean_text "a_b".toList ∧ specCleanChar '_' = false := by
  decide

/-- Claim C4 (amended): clean_text keeps only alphanumerics, underscores,
whitespace and hyphens, replaces hyphens with spaces, upper-cases, collapses
whitespace runs and trims; its output consists of uppercase letters, digits,
underscores and single separating spaces - no leading, trailing or doubled
space - or is empty. -/
theorem clean_text_guarantee (text : List Char) :
    (∀ c ∈ clean_text text, cleanChar c = true) ∧
    noLeadingSpace (clean_text text) = true ∧
    noTrailingSpace (clean_text text) = true ∧
    noDoubleSpace (clean_text text) = true := by
  have hws : ∀ w ∈ pySplit (pyUpper ((text.filter keepChar).map hyphenToSpace)),
      w ≠ [] ∧ ∀ c ∈ w, c ≠ ' ' := by
    intro w hw
    have h := pySplit_sound hw
    refine ⟨h.1, fun c hc => ?_⟩
    intro he
    subst he
    exact absurd (h.2 ' ' hc).2 (by decide)
  have hj := pyJoin_singleSpaced hws
  refine ⟨clean_text_chars text, ?_, ?_, ?_⟩
  · rw [clean_text_eq]
    exact hj.1
  · rw [clean_text_eq]
    exact hj.2.1
  · rw [clean_text_eq]
    exact hj.2.2

/-- Claim C5: an input that normalizes to the empty string produces exactly
the EmptyInput error carrying the original text, with the statistics left
untouched; every other input produces a success. -/
theorem convert_empty_input :
    (∀ (st : Stats) (text : List Char) (skip : Bool), clean_text text = [] →
      convert st text skip = (ConvertOutput.error "Empty input".toList text, st)) ∧
    (∀ (st : Stats) (text : List Char) (skip : Bool), clean_text text ≠ [] →
      ∃ r, (convert st text skip).1 = ConvertOutput.ok r) := by
  constructor
  · intro st text skip h
    exact convert_eq_of_empty st text skip h
  · intro st text skip h
    exact ⟨_, convert_fst_of_ok st text skip h⟩

/-- Witness for claim C5 on empty, blank, and all-punctuation inputs. -/
theorem convert_empty_input_witness :
    convert initStats "".toList true =
      (ConvertOutput.error "Empty input".toList "".toList, initStats) ∧
    convert initStats "   ".toList true =
      (ConvertOutput.error "Empty input".toList "   ".toList, initStats) ∧
    convert initStats "!!!".toList true =
      (ConvertOutput.error "Empty input".toList "!!!".toList, initStats) ∧
    ∃ r, (convert initStats "Eiffel Tower".toList false).1 = ConvertOutput.ok r :=
  ⟨convert_empty_input.1 initStats "".toList true (by decide),
   convert_empty_input.1 initStats "   ".toList true (by decide),
   convert_empty_input.1 initStats "!!!".toList true (by decide),
   convert_empty_input.2 initStats "Eiffel Tower".toList false (by decide)⟩

/-- Claim C6: when the normalized text is non-empty, convert returns a
success whose chunk list has one abbreviation per surviving word, whose code
is the chunks joined by single hyphens, and whose compact code is the same
chunks concatenated with no separator. -/
theorem convert_ok_structure (st : Stats) (text : List Char) (skip : Bool)
    (h : clean_text text ≠ []) :
    (convert st text skip).1 = ConvertOutput.ok
      { original := text, cleaned := clean_text text,
        words := survivors text skip,
        code := pyJoin ['-'] ((survivors text skip).map get_three_letters),
        compact := pyJoin [] ((survivors text skip).map get_three_letters),
        chunks := (survivors text skip).map get_three_letters,
        length := ((survivors text skip).map get_three_letters).length } :=
  convert_fst_of_ok st text skip h

/-- Witness for claim C6 at a concrete input. -/
theorem convert_ok_structure_witness :
    (convert initStats "Eiffel Tower".toList true).1 = ConvertOutput.ok
      { original := "Eiffel Tower".toList,
        cleaned := clean_text "Eiffel Tower".toList,
        words := survivors "Eiffel Tower".toList true,
        code := pyJoin ['-'] ((survivors "Eiffel Tower".toList true).map get_three_letters),
        compact := pyJoin [] ((survivors "Eiffel Tower".toList true).map get_three_letters),
        chunks := (survivors "Eiffel Tower".toList true).map get_three_letters,
        length := ((survivors "Eiffel Tower".toList true).map get_three_letters).length } :=
  convert_ok_structure initStats "Eiffel Tower".toList true (by decide)

/-- Claim C7: a non-empty normalized input all of whose words are stop words
still succeeds when stop-word removal is on: the surviving word list and the
chunk list are empty and both code strings are empty. -/
theorem convert_all_stop_words (st : Stats) (text : List Char)
    (h : clean_text text ≠ [])
    (hall : ∀ w ∈ pySplit (clean_text text), stop_words.contains (pyLower w) = true) :
    (convert st text true).1 = ConvertOutput.ok
      { original := text, cleaned := clean_text text, words := [],
        code := [], compact := [], chunks := [], length := 0 } := by
  rw [convert_fst_of_ok st text true h, survivors_eq_nil hall]
  rfl

/-- Witness for claim C7 on an input made only of stop words. -/
theorem convert_all_stop_words_witness :
    (convert initStats "the of".toList true).1 = ConvertOutput.ok
      { original := "the of".toList, cleaned := clean_text "the of".toList,
        words := [], code := [], compact := [], chunks := [], length := 0 } :=
  convert_all_stop_words initStats "the of".toList (by decide) (by decide)

/-- Claim C8: N successful conversions increase total_conversions by exactly
N; every successful call inserts its code into the distinct-code set, so the
unique-code count equals the number of distinct codes actually produced, and
the counters never decrease. -/
theorem stats_accumulation (inputs : List (List Char × Bool))
    (h : ∀ p ∈ inputs, clean_text p.1 ≠ []) :
    (get_stats (runAll initStats inputs)).total_conversions = inputs.length ∧
    (runAll initStats inputs).unique_codes =
      (inputs.map (fun p => codeOf p.1 p.2)).toFinset ∧
    (get_stats (runAll initStats inputs)).unique_codes_generated =
      (inputs.map (fun p => codeOf p.1 p.2)).dedup.length ∧
    ∀ st : Stats, st.conversions ≤ (runAll st inputs).conversions ∧
      st.unique_codes ⊆ (runAll st inputs).unique_codes := by
  have h0 := runAll_stats inputs initStats h
  refine ⟨?_, ?_, ?_, ?_⟩
  · rw [h0]
    simp [get_stats, initStats]
  · rw [h0]
    simp [initStats]
  · rw [h0]
    simp [get_stats, initStats, List.card_toFinset]
  · intro st
    rw [runAll_stats inputs st h]
    exact ⟨Nat.le_add_right _ _, Finset.subset_union_left⟩

/-- Witness for claim C8: two identical successful conversions count twice in
total_conversions but produce one distinct code. -/
theorem stats_accumulation_witness :
    (get_stats (runAll initStats
      [("Eiffel Tower".toList, true), ("Eiffel Tower".toList, true)])).total_conversions = 2 ∧
    (get_stats (runAll initStats
      [("Eiffel Tower".toList, true), ("Eiffel Tower".toList, true)])).unique_codes_generated = 1 := by
  have h := stats_accumulation
    [("Eiffel Tower".toList, true), ("Eiffel Tower".toList, true)] (by decide)
  exact ⟨h.1.trans (by decide), h.2.2.1.trans (by decide)⟩

/-- Claim C9: normalization is idempotent. -/
theorem clean_text_idempotent (x : List Char) :
    clean_text (clean_text x) = clean_text x := by
  have hy := clean_text_chars x
  have hfilter : (clean_text x).filter keepChar = clean_text x :=
    List.filter_eq_self.mpr (fun c hc => keep_of_cleanChar (hy c hc))
  have hmap : (clean_text x).map hyphenToSpace = clean_text x :=
    map_eq_self_of (fun c hc => hyph_of_cleanChar (hy c hc))
  have hup : pyUpper (clean_text x) = clean_text x :=
    map_eq_self_of (fun c hc => upperChar_of_cleanChar (hy c hc))
  rw [clean_text_eq (clean_text x), hfilter, hmap, hup]
  rw [clean_text_eq x]
  rw [pySplit_pyJoin
    (fun w hw => ⟨(pySplit_sound hw).1, fun c hc => ((pySplit_sound hw).2 c hc).2⟩)]

/-- Claim C10: the conversion output depends only on the text and the flag,
never on the accumulated statistics, and the statistics update performed by a
call is the same function of those arguments for every starting state. -/
theorem convert_state_independence (stA stB : Stats) (text : List Char) (skip : Bool) :
    (convert stA text skip).1 = (convert stB text skip).1 ∧
    ∀ st : Stats, (convert st text skip).2 =
      if clean_text text = [] then st
      else ⟨st.conversions + 1, insert (codeOf text skip) st.unique_codes⟩ := by
  constructor
  · by_cases h : clean_text text = []
    · rw [convert_eq_of_empty stA text skip h, convert_eq_of_empty stB text skip h]
    · rw [convert_fst_of_ok stA text skip h, convert_fst_of_ok stB text skip h]
  · intro st
    exact convert_snd st text skip

end ROLeMa
